import Mathlib

/-!
Shallow embedding of `src/Tekhnolohiyi_zakhystu_informatsiyi/haffman_method.py`.

Python strings are modelled as `List Char`; the `code_dict` Python dict
(`Dict[str, str]`) as an association list `List (Char × List Char)` with
insertion that overwrites an existing key in place (exactly the observable
behaviour of a Python dict used with single-character keys); a Python crash
(AttributeError on a `None` dereference, IndexError on an empty list) as
`Option.none`. All functions are executable and reduce in the kernel.
-/

namespace Huffman

/-- `d[k] = v` on a Python dict represented as an association list: if the key
is present its value is replaced in place, otherwise the pair is appended. -/
def dictInsert (k : Char) (v : List Char) : List (Char × List Char) → List (Char × List Char)
  | [] => [(k, v)]
  | (k', v') :: rest => if k' = k then (k, v) :: rest else (k', v') :: dictInsert k v rest

/-- `d.get(k)` on a Python dict represented as an association list. -/
def dictGet (k : Char) : List (Char × List Char) → Option (List Char)
  | [] => none
  | (k', v) :: rest => if k' = k then some v else dictGet k rest

/-- The `Node` class (`haffman_method.py` lines 5–19): an optional symbol, a
frequency, and optional `left`/`right` children.  The four constructors
enumerate which of the two optional children are present, so that recursion
over the tree is structural; `Node.mk` below rebuilds the Python constructor
signature `Node(char, frequency, left, right)` on top of them. -/
inductive Node where
  | mk0 : Option Char → Nat → Node
  | mkL : Option Char → Nat → Node → Node
  | mkR : Option Char → Nat → Node → Node
  | mk2 : Option Char → Nat → Node → Node → Node
deriving DecidableEq

/-- `Node.__init__(char, frequency, left, right)`. -/
def Node.mk (char : Option Char) (frequency : Nat) : Option Node → Option Node → Node
  | none, none => .mk0 char frequency
  | some l, none => .mkL char frequency l
  | none, some r => .mkR char frequency r
  | some l, some r => .mk2 char frequency l r

/-- The `char` attribute of a node. -/
def Node.char : Node → Option Char
  | .mk0 c _ => c
  | .mkL c _ _ => c
  | .mkR c _ _ => c
  | .mk2 c _ _ _ => c

/-- The `frequency` attribute of a node. -/
def Node.frequency : Node → Nat
  | .mk0 _ f => f
  | .mkL _ f _ => f
  | .mkR _ f _ => f
  | .mk2 _ f _ _ => f

/-- The `left` attribute of a node. -/
def Node.left : Node → Option Node
  | .mk0 _ _ => none
  | .mkL _ _ l => some l
  | .mkR _ _ _ => none
  | .mk2 _ _ l _ => some l

/-- The `right` attribute of a node. -/
def Node.right : Node → Option Node
  | .mk0 _ _ => none
  | .mkL _ _ _ => none
  | .mkR _ _ r => some r
  | .mk2 _ _ _ r => some r

@[simp] theorem Node.char_mk (c : Option Char) (f : Nat) (l r : Option Node) :
    (Node.mk c f l r).char = c := by
  cases l <;> cases r <;> rfl

@[simp] theorem Node.frequency_mk (c : Option Char) (f : Nat) (l r : Option Node) :
    (Node.mk c f l r).frequency = f := by
  cases l <;> cases r <;> rfl

@[simp] theorem Node.left_mk (c : Option Char) (f : Nat) (l r : Option Node) :
    (Node.mk c f l r).left = l := by
  cases l <;> cases r <;> rfl

@[simp] theorem Node.right_mk (c : Option Char) (f : Nat) (l r : Option Node) :
    (Node.mk c f l r).right = r := by
  cases l <;> cases r <;> rfl

/-- One insertion step of the stable insertion sort modelling
`copy_nodes.sort(key=lambda node: node.frequency)` (line 36): an element is
placed before the first element with a strictly greater-or-equal key only if
its own key is `≤`, which keeps equal-key elements in their original order —
the stability guarantee of Python's `list.sort`. -/
def insertSorted (x : Node) : List Node → List Node
  | [] => [x]
  | y :: ys => if x.frequency ≤ y.frequency then x :: y :: ys else y :: insertSorted x ys

/-- Stable sort of the node work list by `frequency` (line 36). -/
def sortNodes : List Node → List Node
  | [] => []
  | x :: xs => insertSorted x (sortNodes xs)

/-- The `while len(copy_nodes) > 1` loop of `_create_root_of_tree`
(lines 35–54): sort by frequency, pop the two smallest, merge them into a new
internal node (`char=None`, summed frequency, popped nodes as `left`/`right`),
append it, repeat.  The `fuel` argument bounds the number of iterations; each
iteration shrinks the list by exactly one, so `fuel = length` (supplied by
`create_root_of_tree`) is never exhausted.  An empty list models the
`copy_nodes[0]` IndexError of line 54 as `none`. -/
def huffLoop : Nat → List Node → Option Node
  | _, [] => none
  | _, [n] => some n
  | 0, _ :: _ :: _ => none
  | fuel + 1, a :: b :: rest =>
      match sortNodes (a :: b :: rest) with
      | l :: r :: rest' =>
          huffLoop fuel (rest' ++ [Node.mk none (l.frequency + r.frequency) (some l) (some r)])
      | _ => none

/-- `HuffmanMethod._create_root_of_tree` (lines 30–54) as a function from the
input node list to the root (`none` models the IndexError on an empty list). -/
def create_root_of_tree (base_nodes : List Node) : Option Node :=
  huffLoop base_nodes.length base_nodes

/-- `HuffmanMethod._generate_codes` (lines 57–74): if the node has a symbol it
is a leaf and the accumulated path is recorded; otherwise both children are
visited, `"0"` appended on the left, `"1"` on the right.  Visiting a missing
child is the Python call `_generate_codes(None, …)`, which crashes with an
AttributeError on `node.char`: all such cases yield `none` (when only the
right child is missing the left subtree is still traversed first, but the
exception discards the partially filled dict, so the overall result is the
same `none`). -/
def generate_codes : Node → List Char → List (Char × List Char) → Option (List (Char × List Char))
  | .mk0 (some c) _, pre, d => some (dictInsert c pre d)
  | .mkL (some c) _ _, pre, d => some (dictInsert c pre d)
  | .mkR (some c) _ _, pre, d => some (dictInsert c pre d)
  | .mk2 (some c) _ _ _, pre, d => some (dictInsert c pre d)
  | .mk0 none _, _, _ => none
  | .mkL none _ _, _, _ => none
  | .mkR none _ _, _, _ => none
  | .mk2 none _ l r, pre, d =>
      match generate_codes l (pre ++ ['0']) d with
      | none => none
      | some d1 => generate_codes r (pre ++ ['1']) d1

/-- `HuffmanMethod.encode_text` (lines 77–85): for each character look up its
code; append it when found, silently skip the character otherwise. -/
def encode_text (code_dict : List (Char × List Char)) : List Char → List Char
  | [] => []
  | c :: cs =>
      match dictGet c code_dict with
      | some code => code ++ encode_text code_dict cs
      | none => encode_text code_dict cs

/-- The conditional `temp_node.left if bit == "0" else temp_node.right` of
line 95: descend left exactly when the character is `"0"`, right on anything
else. -/
def descend (t : Node) (bit : Char) : Option Node :=
  if bit = '0' then t.left else t.right

/-- The loop body of `HuffmanMethod.decode_text` (lines 90–102): descend,
crash (`none`) if the reached child is missing (Python dereferences
`None.char`), emit the symbol and reset to the root when the reached node has
one. -/
def decode_go (root : Node) : Node → List Char → List Char → Option (List Char)
  | _, [], acc => some acc
  | temp, bit :: bits, acc =>
      match descend temp bit with
      | none => none
      | some t' =>
          match t'.char with
          | some c => decode_go root root bits (acc ++ [c])
          | none => decode_go root t' bits acc

/-- `HuffmanMethod.decode_text` (lines 88–102). -/
def decode_text (root : Node) (encoded_text : List Char) : Option (List Char) :=
  decode_go root root encoded_text []

/-- One step of `collections.Counter`: bump the count of `c`, appending a new
entry with count 1 when the character is first seen (Counter preserves
first-encounter order). -/
def counterAdd : List (Char × Nat) → Char → List (Char × Nat)
  | [], c => [(c, 1)]
  | (c', n) :: rest, c => if c' = c then (c', n + 1) :: rest else (c', n) :: counterAdd rest c

/-- `HuffmanBasedProcessor._count_chars_freq` (lines 114–116):
`Counter(self.base_text)`. -/
def count_chars_freq (text : List Char) : List (Char × Nat) :=
  text.foldl counterAdd []

/-- `HuffmanBasedProcessor._create_huffman_tree` (lines 119–124): one leaf
node per distinct character of the text, in Counter order. -/
def create_huffman_nodes (text : List Char) : List Node :=
  (count_chars_freq text).map (fun cf => Node.mk (some cf.1) cf.2 none none)

/-- `HuffmanMethod.__init__` (lines 25–28): build the root, then the code
dict; `none` models a crash in either step. -/
def huffman_init (nodes : List Node) : Option (Node × List (Char × List Char)) :=
  match create_root_of_tree nodes with
  | none => none
  | some root =>
      match generate_codes root [] [] with
      | none => none
      | some d => some (root, d)

/-- The `__main__` round trip (lines 144–157) through `HuffmanBasedProcessor`:
build the tree and codes from the text itself, encode the text, decode the
result. -/
def processor_roundtrip (text : List Char) : Option (List Char) :=
  match huffman_init (create_huffman_nodes text) with
  | none => none
  | some (root, cd) => decode_text root (encode_text cd text)

/-- The code assigned to symbol `c` by a `HuffmanMethod` built from `nodes`
(`none` when construction crashes or the symbol has no code). -/
def derived_code (nodes : List Node) (c : Char) : Option (List Char) :=
  match huffman_init nodes with
  | none => none
  | some (_, cd) => dictGet c cd

/-- Replace every character other than `'0'` by `'1'`: the equivalence class
of an encoded string under the decoder's branch test of line 95. -/
def normalize_bits (s : List Char) : List Char :=
  s.map (fun c => if c = '0' then '0' else '1')

example : huffman_init (create_huffman_nodes ['a', 'b']) =
    some (Node.mk2 none 2 (Node.mk0 (some 'a') 1) (Node.mk0 (some 'b') 1),
      [('a', ['0']), ('b', ['1'])]) := rfl

example : processor_roundtrip ['a', 'b', 'a'] = some ['a', 'b', 'a'] := by decide

example : processor_roundtrip ['a', 'a', 'a', 'a'] = some [] := rfl

/-! ### Dictionary lemmas -/

theorem dictGet_dictInsert_self (k : Char) (v : List Char) (d : List (Char × List Char)) :
    dictGet k (dictInsert k v d) = some v := by
  induction d with
  | nil => simp [dictInsert, dictGet]
  | cons hd tl ih =>
      obtain ⟨k', v'⟩ := hd
      by_cases h : k' = k <;> simp [dictInsert, dictGet, h, ih]

theorem mem_dictInsert {a k : Char} {p v : List Char} {d : List (Char × List Char)}
    (h : (a, p) ∈ dictInsert k v d) : (a = k ∧ p = v) ∨ (a, p) ∈ d := by
  induction d with
  | nil =>
      simp [dictInsert] at h
      exact Or.inl h
  | cons hd tl ih =>
      obtain ⟨k', v'⟩ := hd
      by_cases hk : k' = k
      · simp [dictInsert, hk] at h
        rcases h with ⟨h1, h2⟩ | h
        · exact Or.inl ⟨h1, h2⟩
        · exact Or.inr (List.mem_cons_of_mem _ h)
      · simp [dictInsert, hk] at h
        rcases h with ⟨h1, h2⟩ | h
        · subst h1; subst h2; exact Or.inr (List.mem_cons_self _ _)
        · rcases ih h with h | h
          · exact Or.inl h
          · exact Or.inr (List.mem_cons_of_mem _ h)

theorem dictGet_mem {k : Char} {v : List Char} {d : List (Char × List Char)}
    (h : dictGet k d = some v) : (k, v) ∈ d := by
  induction d with
  | nil => simp [dictGet] at h
  | cons hd tl ih =>
      obtain ⟨k', v'⟩ := hd
      by_cases hk : k' = k
      · subst hk
        simp [dictGet] at h
        subst h
        exact List.mem_cons_self _ _
      · simp [dictGet, hk] at h
        exact List.mem_cons_of_mem _ (ih h)

theorem dictGet_dictInsert_isSome {c k : Char} {v : List Char} {d : List (Char × List Char)}
    (h : (dictGet c d).isSome) : (dictGet c (dictInsert k v d)).isSome := by
  induction d with
  | nil => simp [dictGet] at h
  | cons hd tl ih =>
      obtain ⟨k', v'⟩ := hd
      by_cases hk : k' = k
      · subst hk
        by_cases hc : k' = c <;> simp [dictGet, dictInsert, hc] at h ⊢
        exact h
      · by_cases hc : k' = c
        · subst hc
          simp [dictGet, dictInsert, hk]
        · simp [dictGet, dictInsert, hk, hc] at h ⊢
          exact ih h

/-! ### Shape predicates on trees -/

/-- A node as created by `HuffmanBasedProcessor._create_huffman_tree`
(line 124): it carries a symbol and has no children. -/
def IsLeafNode (n : Node) : Prop :=
  n.char ≠ none ∧ n.left = none ∧ n.right = none

instance (n : Node) : Decidable (IsLeafNode n) := by
  unfold IsLeafNode
  infer_instance

/-- Well-formed Huffman trees: every node either is a symbol-carrying leaf
with no children, or is an internal node (`char=None`) with both children
present.  Exactly the shapes `_create_root_of_tree` can produce from
processor-made leaves. -/
inductive WF : Node → Prop where
  | leaf : ∀ c f, WF (.mk0 (some c) f)
  | node : ∀ f l r, WF l → WF r → WF (.mk2 none f l r)

theorem IsLeafNode.wf {n : Node} (h : IsLeafNode n) : WF n := by
  obtain ⟨h1, h2, h3⟩ := h
  cases n with
  | mk0 c f =>
      cases c with
      | none => exact absurd rfl h1
      | some c => exact WF.leaf c f
  | mkL c f l => simp [Node.left] at h2
  | mkR c f r => simp [Node.right] at h3
  | mk2 c f l r => simp [Node.left] at h2

/-- `LeafPath t p c` holds when walking `p` from `t` — left on `'0'`, right
on `'1'`, exactly the recursion of `_generate_codes` — passes only through
symbol-free nodes and ends at a node whose `char` is `c`. -/
inductive LeafPath : Node → List Char → Char → Prop where
  | here : ∀ n c, n.char = some c → LeafPath n [] c
  | left : ∀ n l p c, n.char = none → n.left = some l → LeafPath l p c →
      LeafPath n ('0' :: p) c
  | right : ∀ n r p c, n.char = none → n.right = some r → LeafPath r p c →
      LeafPath n ('1' :: p) c

theorem LeafPath.nil_char {t : Node} {c : Char} (h : LeafPath t [] c) :
    t.char = some c := by
  cases h with
  | here _ _ hc => exact hc

theorem LeafPath.cons_char {t : Node} {b : Char} {p : List Char} {c : Char}
    (h : LeafPath t (b :: p) c) : t.char = none := by
  cases h with
  | left _ _ _ _ hc _ _ => exact hc
  | right _ _ _ _ hc _ _ => exact hc

theorem LeafPath.cons_descend {t : Node} {b : Char} {p : List Char} {c : Char}
    (h : LeafPath t (b :: p) c) : ∃ u, descend t b = some u ∧ LeafPath u p c := by
  cases h with
  | left _ l _ _ _ hl hp => exact ⟨l, by simp [descend, hl], hp⟩
  | right _ r _ _ _ hr hp =>
      refine ⟨r, ?_, hp⟩
      have : ('1' : Char) ≠ '0' := by decide
      simp [descend, this, hr]

/-! ### Lemmas about `generate_codes` -/

theorem generate_codes_isSome {t : Node} (hwf : WF t) :
    ∀ pre d, (generate_codes t pre d).isSome := by
  induction hwf with
  | leaf c f => intro pre d; simp [generate_codes]
  | node f l r hl hr ihl ihr =>
      intro pre d
      rcases Option.isSome_iff_exists.mp (ihl (pre ++ ['0']) d) with ⟨d1, hd1⟩
      rcases Option.isSome_iff_exists.mp (ihr (pre ++ ['1']) d1) with ⟨d2, hd2⟩
      simp [generate_codes, hd1, hd2]

theorem generate_codes_mono {t : Node} (hwf : WF t) :
    ∀ {pre d d' c}, generate_codes t pre d = some d' →
      (dictGet c d).isSome → (dictGet c d').isSome := by
  induction hwf with
  | leaf cc f =>
      intro pre d d' c hgc h
      simp [generate_codes] at hgc
      subst hgc
      exact dictGet_dictInsert_isSome h
  | node f l r hl hr ihl ihr =>
      intro pre d d' c hgc h
      rcases hh : generate_codes l (pre ++ ['0']) d with _ | d1
      · simp [generate_codes, hh] at hgc
      · simp [generate_codes, hh] at hgc
        exact ihr hgc (ihl hh h)

theorem generate_codes_entries {t : Node} (hwf : WF t) :
    ∀ {pre d d' a p}, generate_codes t pre d = some d' → (a, p) ∈ d' →
      (a, p) ∈ d ∨ ∃ q, p = pre ++ q ∧ LeafPath t q a := by
  induction hwf with
  | leaf c f =>
      intro pre d d' a p hgc hm
      simp [generate_codes] at hgc
      subst hgc
      rcases mem_dictInsert hm with ⟨h1, h2⟩ | h
      · subst h1; subst h2
        exact Or.inr ⟨[], by simp, LeafPath.here _ _ rfl⟩
      · exact Or.inl h
  | node f l r hl hr ihl ihr =>
      intro pre d d' a p hgc hm
      rcases hh : generate_codes l (pre ++ ['0']) d with _ | d1
      · simp [generate_codes, hh] at hgc
      · simp [generate_codes, hh] at hgc
        rcases ihr hgc hm with h | ⟨q, hq, hlp⟩
        · rcases ihl hh h with h2 | ⟨q, hq, hlp⟩
          · exact Or.inl h2
          · exact Or.inr ⟨'0' :: q, by simp [hq], LeafPath.left _ _ _ _ rfl rfl hlp⟩
        · exact Or.inr ⟨'1' :: q, by simp [hq], LeafPath.right _ _ _ _ rfl rfl hlp⟩

theorem generate_codes_covers {t : Node} (hwf : WF t) :
    ∀ {pre d d' q c}, generate_codes t pre d = some d' → LeafPath t q c →
      (dictGet c d').isSome := by
  induction hwf with
  | leaf cc f =>
      intro pre d d' q c hgc hlp
      simp [generate_codes] at hgc
      subst hgc
      cases hlp with
      | here _ _ hc =>
          simp [Node.char] at hc
          subst hc
          simp [dictGet_dictInsert_self]
      | left _ _ _ _ _ hleft _ => simp [Node.left] at hleft
      | right _ _ _ _ _ hright _ => simp [Node.right] at hright
  | node f l r hl hr ihl ihr =>
      intro pre d d' q c hgc hlp
      rcases hh : generate_codes l (pre ++ ['0']) d with _ | d1
      · simp [generate_codes, hh] at hgc
      · simp [generate_codes, hh] at hgc
        cases hlp with
        | here _ _ hc => simp [Node.char] at hc
        | left _ l' _ _ _ hleft hp =>
            simp [Node.left] at hleft
            subst hleft
            exact generate_codes_mono hr hgc (ihl hh hp)
        | right _ r' _ _ _ hright hp =>
            simp [Node.right] at hright
            subst hright
            exact ihr hgc hp

/-! ### Uniqueness of leaf paths -/

theorem LeafPath.ne_nil_char {t : Node} {m : List Char} {c : Char}
    (h : LeafPath t m c) (hne : m ≠ []) : t.char = none := by
  cases m with
  | nil => exact absurd rfl hne
  | cons b bs => exact h.cons_char

theorem LeafPath.prefix_eq {p : List Char} :
    ∀ {t : Node} {q : List Char} {a b : Char}, LeafPath t p a → LeafPath t q b →
      p <+: q → p = q := by
  induction p with
  | nil =>
      intro t q a b hp hq _
      cases q with
      | nil => rfl
      | cons b0 q' =>
          have h1 := hp.nil_char
          have h2 := hq.cons_char
          rw [h1] at h2
          exact Option.noConfusion h2
  | cons b0 p' ih =>
      intro t q a b hp hq hpre
      rcases hpre with ⟨r, hr⟩
      subst hr
      rcases hp.cons_descend with ⟨u, hu, hpu⟩
      rcases hq.cons_descend with ⟨u', hu', hqu⟩
      rw [hu] at hu'
      injection hu' with huu
      subst huu
      have heq : p' = p' ++ r := ih hpu hqu ⟨r, rfl⟩
      rw [List.cons_append]
      exact congrArg (List.cons b0) heq

theorem LeafPath.char_eq {p : List Char} :
    ∀ {t : Node} {a b : Char}, LeafPath t p a → LeafPath t p b → a = b := by
  induction p with
  | nil =>
      intro t a b hp hq
      have h1 := hp.nil_char
      have h2 := hq.nil_char
      rw [h1] at h2
      exact Option.some.inj h2
  | cons b0 p' ih =>
      intro t a b hp hq
      rcases hp.cons_descend with ⟨u, hu, hpu⟩
      rcases hq.cons_descend with ⟨u', hu', hqu⟩
      rw [hu] at hu'
      injection hu' with huu
      subst huu
      exact ih hpu hqu

/-! ### Lemmas about the decoder walk -/

/-- Feeding the decoder a complete root-to-leaf code emits that leaf's symbol
and resets the walk to the root. -/
theorem decode_go_code {p : List Char} :
    ∀ {t : Node} {s : Char}, LeafPath t p s → p ≠ [] →
      ∀ (root : Node) (rest acc : List Char),
        decode_go root t (p ++ rest) acc = decode_go root root rest (acc ++ [s]) := by
  induction p with
  | nil => intro t s _ hne; exact absurd rfl hne
  | cons b p' ih =>
      intro t s hp _ root rest acc
      rcases hp.cons_descend with ⟨u, hu, hpu⟩
      cases p' with
      | nil =>
          have hc : u.char = some s := hpu.nil_char
          simp [decode_go, hu, hc]
      | cons b' p'' =>
          have hc : u.char = none := hpu.cons_char
          simp only [List.cons_append, decode_go, hu, hc]
          exact ih hpu (by simp) root rest acc

/-- Decoding the encoding of a fully covered text, followed by any tail,
first reproduces the text and then continues with the tail from the root. -/
theorem decode_go_encode {root : Node} {cd : List (Char × List Char)} :
    ∀ {text : List Char},
      (∀ c ∈ text, ∃ p, dictGet c cd = some p ∧ LeafPath root p c ∧ p ≠ []) →
      ∀ tail acc, decode_go root root (encode_text cd text ++ tail) acc =
        decode_go root root tail (acc ++ text) := by
  intro text
  induction text with
  | nil => intro _ tail acc; simp [encode_text]
  | cons c cs ih =>
      intro H tail acc
      rcases H c (List.mem_cons_self _ _) with ⟨p, hget, hlp, hne⟩
      have Hcs : ∀ x ∈ cs, ∃ p, dictGet x cd = some p ∧ LeafPath root p x ∧ p ≠ [] :=
        fun x hx => H x (List.mem_cons_of_mem _ hx)
      simp only [encode_text, hget]
      rw [List.append_assoc, decode_go_code hlp hne root (encode_text cd cs ++ tail) acc,
        ih Hcs tail (acc ++ [c])]
      congr 1
      simp

/-- A proper, non-completed fragment of a leaf code walks through internal
nodes only: the decoder emits nothing on it. -/
theorem decode_go_partial {q : List Char} :
    ∀ {t : Node} {p : List Char} {s : Char}, LeafPath t p s → q <+: p → q ≠ p →
      ∀ (root : Node) (acc : List Char), decode_go root t q acc = some acc := by
  induction q with
  | nil => intro t p s _ _ _ root acc; simp [decode_go]
  | cons b q' ih =>
      intro t p s hp hpre hne root acc
      rcases hpre with ⟨r, hr⟩
      subst hr
      rcases hp.cons_descend with ⟨u, hu, hpu⟩
      have hrne : r ≠ [] := by
        intro h
        subst h
        simp at hne
      have hqr : q' ++ r ≠ [] := by
        intro h
        exact hrne (List.append_eq_nil.mp h).2
      have hc : u.char = none := hpu.ne_nil_char hqr
      simp only [decode_go, hu, hc]
      refine ih hpu ⟨r, rfl⟩ ?_ root acc
      intro h
      have := congrArg List.length h
      simp at this
      exact hrne this

/-- On a well-formed tree whose root is internal, the decoder never
dereferences a missing child: it succeeds on every input string. -/
theorem decode_go_safe {root : Node} (hroot : WF root) (hrc : root.char = none) :
    ∀ (bits : List Char) {temp : Node}, WF temp → temp.char = none →
      ∀ acc, ∃ out, decode_go root temp bits acc = some out := by
  intro bits
  induction bits with
  | nil => intro temp _ _ acc; exact ⟨acc, rfl⟩
  | cons b bs ih =>
      intro temp hwf hc acc
      cases hwf with
      | leaf c f => simp [Node.char] at hc
      | node f l r hl hr =>
          have hd : ∃ u, descend (.mk2 none f l r) b = some u ∧ WF u := by
            by_cases hb : b = '0'
            · exact ⟨l, by simp [descend, hb, Node.left], hl⟩
            · exact ⟨r, by simp [descend, hb, Node.right], hr⟩
          rcases hd with ⟨u, hu, hwu⟩
          rcases hcu : u.char with _ | c
          · rcases ih hwu hcu acc with ⟨out, hout⟩
            exact ⟨out, by simp [decode_go, hu, hcu, hout]⟩
          · rcases ih hroot hrc (acc ++ [c]) with ⟨out, hout⟩
            exact ⟨out, by simp [decode_go, hu, hcu, hout]⟩

/-- The decoder only ever tests whether a character equals `'0'`: replacing
every other character by `'1'` cannot change the result. -/
theorem decode_go_normalize {root : Node} :
    ∀ (s : List Char) (temp : Node) (acc : List Char),
      decode_go root temp s acc = decode_go root temp (normalize_bits s) acc := by
  intro s
  induction s with
  | nil => intro temp acc; rfl
  | cons b bs ih =>
      intro temp acc
      have hnorm : normalize_bits (b :: bs) =
          (if b = '0' then '0' else '1') :: normalize_bits bs := by
        simp [normalize_bits]
      rcases hdd : descend temp b with _ | u
      · have hd2 : descend temp (if b = '0' then '0' else '1') = none := by
          by_cases hb : b = '0' <;> simp_all [descend]
        simp [decode_go, hnorm, hdd, hd2]
      · have hd2 : descend temp (if b = '0' then '0' else '1') = some u := by
          by_cases hb : b = '0' <;> simp_all [descend]
        rcases hcu : u.char with _ | c
        · simp only [decode_go, hnorm, hdd, hd2, hcu]
          exact ih u acc
        · simp only [decode_go, hnorm, hdd, hd2, hcu]
          exact ih root (acc ++ [c])

/-! ### Lemmas about sorting and tree construction -/

theorem insertSorted_perm (x : Node) (l : List Node) : List.Perm (insertSorted x l) (x :: l) := by
  induction l with
  | nil => exact List.Perm.refl _
  | cons y ys ih =>
      by_cases h : x.frequency ≤ y.frequency
      · simp only [insertSorted, if_pos h]
        exact List.Perm.refl _
      · simp only [insertSorted, if_neg h]
        exact (List.Perm.cons y ih).trans (List.Perm.swap x y ys)

theorem sortNodes_perm (l : List Node) : List.Perm (sortNodes l) l := by
  induction l with
  | nil => exact List.Perm.refl _
  | cons x xs ih => exact (insertSorted_perm x (sortNodes xs)).trans (List.Perm.cons x ih)

theorem huffLoop_single (fuel : Nat) (n : Node) : huffLoop fuel [n] = some n := by
  cases fuel <;> rfl

/-- The merge loop succeeds whenever the work list is non-empty and the fuel
is at least its length (as supplied by `create_root_of_tree`). -/
theorem huffLoop_isSome : ∀ (fuel : Nat) (l : List Node), l ≠ [] → l.length ≤ fuel →
    (huffLoop fuel l).isSome := by
  intro fuel
  induction fuel with
  | zero =>
      intro l hne hlen
      rcases l with _ | ⟨a, _ | ⟨b, rest⟩⟩
      · exact absurd rfl hne
      · simp [huffLoop_single]
      · simp at hlen
  | succ fuel ih =>
      intro l hne hlen
      rcases l with _ | ⟨a, _ | ⟨b, rest⟩⟩
      · exact absurd rfl hne
      · simp [huffLoop_single]
      · have hlen_eq := (sortNodes_perm (a :: b :: rest)).length_eq
        rcases hs : sortNodes (a :: b :: rest) with _ | ⟨l₁, _ | ⟨r₁, rest'⟩⟩
        · rw [hs] at hlen_eq; simp at hlen_eq
        · rw [hs] at hlen_eq; simp at hlen_eq
        · rw [hs] at hlen_eq
          simp only [List.length_cons] at hlen_eq hlen
          simp only [huffLoop, hs]
          apply ih
          · simp
          · simp only [List.length_append, List.length_cons, List.length_nil]
            omega

/-- Invariant of the merge loop: from a work list of well-formed nodes it
produces a well-formed root covering every leaf symbol of the work list, and
the root of a list of two or more nodes is an internal node. -/
theorem huffLoop_inv : ∀ (fuel : Nat) (l : List Node) (root : Node),
    (∀ n ∈ l, WF n) → l.length ≤ fuel → huffLoop fuel l = some root →
    WF root ∧ (∀ c, (∃ n ∈ l, ∃ q, LeafPath n q c) → ∃ q, LeafPath root q c) ∧
      (2 ≤ l.length → root.char = none) := by
  intro fuel
  induction fuel with
  | zero =>
      intro l root hwf hlen hroot
      rcases l with _ | ⟨a, _ | ⟨b, rest⟩⟩
      · simp [huffLoop] at hroot
      · rw [huffLoop_single] at hroot
        injection hroot with h
        subst h
        refine ⟨hwf a (by simp), ?_, by simp⟩
        rintro c ⟨n, hn, q, hq⟩
        simp at hn
        subst hn
        exact ⟨q, hq⟩
      · simp at hlen
  | succ fuel ih =>
      intro l root hwf hlen hroot
      rcases l with _ | ⟨a, _ | ⟨b, rest⟩⟩
      · simp [huffLoop] at hroot
      · rw [huffLoop_single] at hroot
        injection hroot with h
        subst h
        refine ⟨hwf a (by simp), ?_, by simp⟩
        rintro c ⟨n, hn, q, hq⟩
        simp at hn
        subst hn
        exact ⟨q, hq⟩
      · have hperm := sortNodes_perm (a :: b :: rest)
        have hlen_eq := hperm.length_eq
        rcases hs : sortNodes (a :: b :: rest) with _ | ⟨l₁, _ | ⟨r₁, rest'⟩⟩
        · rw [hs] at hlen_eq; simp at hlen_eq
        · rw [hs] at hlen_eq; simp at hlen_eq
        · rw [hs] at hperm hlen_eq
          simp only [List.length_cons] at hlen_eq hlen
          simp only [huffLoop, hs] at hroot
          have hm : ∀ n ∈ l₁ :: r₁ :: rest', WF n := fun n hn => hwf n (hperm.mem_iff.mp hn)
          have hwmerged :
              WF (Node.mk none (l₁.frequency + r₁.frequency) (some l₁) (some r₁)) :=
            WF.node _ _ _ (hm l₁ (by simp)) (hm r₁ (by simp))
          have hwfnew :
              ∀ n ∈ rest' ++ [Node.mk none (l₁.frequency + r₁.frequency) (some l₁) (some r₁)],
                WF n := by
            intro n hn
            rcases List.mem_append.mp hn with hn | hn
            · exact hm n (by simp [hn])
            · simp at hn
              subst hn
              exact hwmerged
          have hlennew :
              (rest' ++ [Node.mk none (l₁.frequency + r₁.frequency) (some l₁) (some r₁)]).length
                ≤ fuel := by
            simp only [List.length_append, List.length_cons, List.length_nil]
            omega
          obtain ⟨hwroot, hcov, hchar⟩ := ih _ root hwfnew hlennew hroot
          refine ⟨hwroot, ?_, ?_⟩
          · rintro c ⟨n, hn, q, hq⟩
            have hn' : n ∈ l₁ :: r₁ :: rest' := hperm.mem_iff.mpr hn
            rcases List.mem_cons.mp hn' with hn1 | hn'
            · exact hcov c ⟨Node.mk none (l₁.frequency + r₁.frequency) (some l₁) (some r₁),
                by simp, '0' :: q, LeafPath.left _ _ _ _ rfl rfl (hn1 ▸ hq)⟩
            · rcases List.mem_cons.mp hn' with hn1 | hn'
              · exact hcov c ⟨Node.mk none (l₁.frequency + r₁.frequency) (some l₁) (some r₁),
                  by simp, '1' :: q, LeafPath.right _ _ _ _ rfl rfl (hn1 ▸ hq)⟩
              · exact hcov c ⟨n, by simp [hn'], q, hq⟩
          · intro _
            cases rest' with
            | nil =>
                rw [List.nil_append, huffLoop_single] at hroot
                injection hroot with h
                subst h
                rfl
            | cons x xs =>
                apply hchar
                simp only [List.length_append, List.length_cons, List.length_nil]
                omega

/-! ### Lemmas about the frequency counter and the full pipeline -/

theorem mem_keys_counterAdd (acc : List (Char × Nat)) (x c : Char) :
    c ∈ (counterAdd acc x).map Prod.fst ↔ c = x ∨ c ∈ acc.map Prod.fst := by
  induction acc with
  | nil => simp [counterAdd]
  | cons hd tl ih =>
      obtain ⟨c', n⟩ := hd
      by_cases hcx : c' = x
      · subst hcx
        simp [counterAdd]
      · simp [counterAdd, hcx, ih]
        tauto

theorem mem_keys_count_chars_freq {text : List Char} {c : Char} (h : c ∈ text) :
    c ∈ (count_chars_freq text).map Prod.fst := by
  suffices H : ∀ (l : List Char) (acc : List (Char × Nat)) (c : Char),
      c ∈ l ∨ c ∈ acc.map Prod.fst → c ∈ (List.foldl counterAdd acc l).map Prod.fst by
    exact H text [] c (Or.inl h)
  intro l
  induction l with
  | nil =>
      intro acc c h
      rcases h with h | h
      · simp at h
      · simpa using h
  | cons x xs ih =>
      intro acc c h
      simp only [List.foldl_cons]
      apply ih
      rcases h with h | h
      · rcases List.mem_cons.mp h with h1 | h1
        · exact Or.inr ((mem_keys_counterAdd acc x c).mpr (Or.inl h1))
        · exact Or.inl h1
      · exact Or.inr ((mem_keys_counterAdd acc x c).mpr (Or.inr h))

theorem create_huffman_nodes_wf (text : List Char) :
    ∀ n ∈ create_huffman_nodes text, WF n := by
  intro n hn
  obtain ⟨⟨c, f⟩, _, hcf⟩ := List.mem_map.mp hn
  rw [← hcf]
  exact WF.leaf c f

theorem create_huffman_nodes_length (text : List Char) :
    (create_huffman_nodes text).length = (count_chars_freq text).length :=
  List.length_map _ _

theorem create_huffman_nodes_leaf {text : List Char} {c : Char} (h : c ∈ text) :
    ∃ n ∈ create_huffman_nodes text, ∃ q, LeafPath n q c := by
  have hk := mem_keys_count_chars_freq h
  obtain ⟨⟨c0, f⟩, hmem, hfst⟩ := List.mem_map.mp hk
  refine ⟨Node.mk (some c0) f none none, List.mem_map.mpr ⟨(c0, f), hmem, rfl⟩, [], ?_⟩
  refine LeafPath.here _ c ?_
  simp
  exact hfst

/-- Building a `HuffmanMethod` on the processor's nodes succeeds whenever the
text has at least two distinct characters. -/
theorem pipeline_total {text : List Char} (h2 : 2 ≤ (count_chars_freq text).length) :
    ∃ root cd, huffman_init (create_huffman_nodes text) = some (root, cd) := by
  have hlen := create_huffman_nodes_length text
  have hne : create_huffman_nodes text ≠ [] := by
    intro h
    rw [h] at hlen
    simp at hlen
    rw [← hlen] at h2
    omega
  have h1 := huffLoop_isSome (create_huffman_nodes text).length _ hne (le_refl _)
  rcases Option.isSome_iff_exists.mp h1 with ⟨root, hroot⟩
  have hinv := huffLoop_inv _ _ root (create_huffman_nodes_wf text) (le_refl _) hroot
  rcases Option.isSome_iff_exists.mp (generate_codes_isSome hinv.1 [] []) with ⟨cd, hcd⟩
  refine ⟨root, cd, ?_⟩
  simp only [huffman_init, create_root_of_tree, hroot, hcd]

/-- What a successful `HuffmanMethod.__init__` on the processor's nodes
guarantees: a well-formed internal root whose code dict assigns every text
character a non-empty root-to-leaf path. -/
theorem pipeline_props {text : List Char} {root : Node} {cd : List (Char × List Char)}
    (h2 : 2 ≤ (count_chars_freq text).length)
    (hinit : huffman_init (create_huffman_nodes text) = some (root, cd)) :
    WF root ∧ root.char = none ∧ generate_codes root [] [] = some cd ∧
      ∀ c ∈ text, ∃ p, dictGet c cd = some p ∧ LeafPath root p c ∧ p ≠ [] := by
  rcases hr : create_root_of_tree (create_huffman_nodes text) with _ | root'
  · simp [huffman_init, hr] at hinit
  · rcases hg : generate_codes root' [] [] with _ | cd'
    · simp [huffman_init, hr, hg] at hinit
    · simp only [huffman_init, hr, hg, Option.some.injEq, Prod.mk.injEq] at hinit
      obtain ⟨h1, h2'⟩ := hinit
      rw [h1] at hr
      rw [h1, h2'] at hg
      have hinv := huffLoop_inv _ _ root (create_huffman_nodes_wf text) (le_refl _) hr
      have hwf := hinv.1
      have hrc : root.char = none := by
        apply hinv.2.2
        rw [create_huffman_nodes_length]
        exact h2
      refine ⟨hwf, hrc, hg, ?_⟩
      intro c hc
      have hq : ∃ q, LeafPath root q c := hinv.2.1 c (create_huffman_nodes_leaf hc)
      rcases hq with ⟨q, hq⟩
      rcases Option.isSome_iff_exists.mp (generate_codes_covers hwf hg hq) with ⟨p, hp⟩
      have hmem := dictGet_mem hp
      rcases generate_codes_entries hwf hg hmem with hmem' | ⟨q', hq', hlp⟩
      · simp at hmem'
      · refine ⟨p, hp, ?_, ?_⟩
        · rw [hq']
          simpa using hlp
        · intro hnil
          rw [hnil] at hq'
          have hq0 : q' = [] := by simpa using hq'.symm
          rw [hq0] at hlp
          have := LeafPath.nil_char hlp
          rw [hrc] at this
          exact Option.noConfusion this

/-! ### Arena model of tree construction, for the frame property -/

/-- A `Node` object on the Python heap: the four attributes set once by
`Node.__init__` (lines 10–19), with children as heap indices. -/
structure NodeRec where
  char : Option Char
  frequency : Nat
  left : Option Nat
  right : Option Nat
deriving DecidableEq

/-- `node.frequency` read through the heap (0 for a dangling index; the
construction never reads one). -/
def heapFrequency (heap : List NodeRec) (i : Nat) : Nat :=
  match heap[i]? with
  | some nd => nd.frequency
  | none => 0

/-- Heap-level insertion step of the stable sort of line 36. -/
def insertSortedId (heap : List NodeRec) (x : Nat) : List Nat → List Nat
  | [] => [x]
  | y :: ys =>
      if heapFrequency heap x ≤ heapFrequency heap y then x :: y :: ys
      else y :: insertSortedId heap x ys

/-- Heap-level stable sort of the id work list by frequency (line 36). -/
def sortIds (heap : List NodeRec) : List Nat → List Nat
  | [] => []
  | x :: xs => insertSortedId heap x (sortIds heap xs)

/-- Heap-level rendition of the `while` loop of `_create_root_of_tree`
(lines 35–54): sorting and popping touch only the id work list (Python's
`copy_nodes`, a copy of `base_nodes`); creating the merged node appends a
fresh record to the heap (`Node.__init__` only allocates — no attribute of
an existing object is ever assigned anywhere in the class). -/
def arenaLoop : Nat → List NodeRec → List Nat → List NodeRec × Option Nat
  | _, heap, [] => (heap, none)
  | _, heap, [i] => (heap, some i)
  | 0, heap, _ :: _ :: _ => (heap, none)
  | fuel + 1, heap, a :: b :: rest =>
      match sortIds heap (a :: b :: rest) with
      | l :: r :: rest' =>
          arenaLoop fuel
            (heap ++ [⟨none, heapFrequency heap l + heapFrequency heap r, some l, some r⟩])
            (rest' ++ [heap.length])
      | _ => (heap, none)

/-- `_create_root_of_tree` on the heap: run the merge loop on a copy of the
`base_nodes` id list, returning the final heap and the root id. -/
def create_root_arena (heap : List NodeRec) (base_nodes : List Nat) :
    List NodeRec × Option Nat :=
  arenaLoop base_nodes.length heap base_nodes

theorem arenaLoop_heap_monotone :
    ∀ (fuel : Nat) (heap : List NodeRec) (ids : List Nat),
      heap <+: (arenaLoop fuel heap ids).1 := by
  intro fuel
  induction fuel with
  | zero =>
      intro heap ids
      rcases ids with _ | ⟨a, _ | ⟨b, rest⟩⟩ <;> exact List.prefix_refl _
  | succ fuel ih =>
      intro heap ids
      rcases ids with _ | ⟨a, _ | ⟨b, rest⟩⟩
      · exact List.prefix_refl _
      · exact List.prefix_refl _
      · rcases hs : sortIds heap (a :: b :: rest) with _ | ⟨l, _ | ⟨r, rest'⟩⟩
        · simp only [arenaLoop, hs]
          exact List.prefix_refl _
        · simp only [arenaLoop, hs]
          exact List.prefix_refl _
        · simp only [arenaLoop, hs]
          exact (List.prefix_append _ _).trans (ih _ _)

/-! ### Claim theorems -/

/-- C1 (corrected: at least two distinct symbols are required).  For every
symbol sequence with at least two distinct symbols, building the frequency
table, tree and code table from the sequence itself, then encoding and
decoding it, returns exactly the original sequence. -/
theorem roundtrip_two_distinct (text : List Char)
    (h2 : 2 ≤ (count_chars_freq text).length) :
    processor_roundtrip text = some text := by
  rcases pipeline_total h2 with ⟨root, cd, hinit⟩
  obtain ⟨hwf, hrc, hg, hcover⟩ := pipeline_props h2 hinit
  simp only [processor_roundtrip, hinit]
  have h := decode_go_encode hcover [] []
  simp only [List.append_nil, List.nil_append] at h
  rw [decode_text, h]
  rfl

/-- C1 witness: the concrete sequence "aba" has two distinct symbols and
round-trips. -/
theorem roundtrip_two_distinct_witness :
    2 ≤ (count_chars_freq ['a', 'b', 'a']).length ∧
      processor_roundtrip ['a', 'b', 'a'] = some ['a', 'b', 'a'] :=
  ⟨by decide, roundtrip_two_distinct ['a', 'b', 'a'] (by decide)⟩

/-- C1 counterexample: the non-empty sequence "a" does not round-trip — the
single symbol gets the empty code, so the encoding is empty and decoding
returns the empty sequence, not "a". -/
theorem roundtrip_single_symbol_fails :
    processor_roundtrip ['a'] = some [] ∧ processor_roundtrip ['a'] ≠ some ['a'] :=
  ⟨rfl, by decide⟩

/-- C2: evaluation at the failing input "aaaa" — the derived code table maps
'a' to the empty code (length 0, not 1), and encode followed by decode yields
the empty sequence instead of recovering "aaaa". -/
theorem single_symbol_code_empty :
    derived_code (create_huffman_nodes ['a', 'a', 'a', 'a']) 'a' = some [] ∧
      (derived_code (create_huffman_nodes ['a', 'a', 'a', 'a']) 'a').map List.length
        = some 0 ∧
      processor_roundtrip ['a', 'a', 'a', 'a'] = some [] :=
  ⟨rfl, rfl, rfl⟩

/-- C3 counterexample: encoding "axb" against a table that only knows 'a' and
'b' does not fail — it silently skips 'x' and returns the concatenation of
the known codes, a non-empty partial output. -/
theorem encode_skips_unknown_symbol :
    encode_text [('a', ['0']), ('b', ['1'])] ['a', 'x', 'b'] = ['0', '1'] ∧
      encode_text [('a', ['0']), ('b', ['1'])] ['a', 'x', 'b'] ≠ [] :=
  ⟨rfl, by decide⟩

/-- C3 (corrected): `encode_text` never fails; it encodes exactly the symbols
present in the code table and silently drops the rest — the output equals the
encoding of the input filtered to table-covered symbols. -/
theorem encode_drops_unknown_symbols (code_dict : List (Char × List Char))
    (text : List Char) :
    encode_text code_dict text =
      encode_text code_dict (text.filter fun c => (dictGet c code_dict).isSome) := by
  induction text with
  | nil => rfl
  | cons c cs ih =>
      rcases h : dictGet c code_dict with _ | p
      · simpa [encode_text, h, List.filter_cons] using ih
      · simp [encode_text, h, List.filter_cons]
        exact ih

/-- C4: building the tree from an empty node list fails (the model of the
IndexError at `copy_nodes[0]`, the spec's EmptyInput), while any non-empty
node list yields a root. -/
theorem build_tree_empty_fails :
    create_root_of_tree [] = none ∧
      ∀ (nodes : List Node), nodes ≠ [] → (create_root_of_tree nodes).isSome :=
  ⟨rfl, fun _ hne => huffLoop_isSome _ _ hne (le_refl _)⟩

/-- C4 witness: a one-leaf list builds successfully. -/
theorem build_tree_empty_fails_witness :
    (create_root_of_tree [Node.mk (some 'a') 1 none none]).isSome :=
  build_tree_empty_fails.2 _ (List.cons_ne_nil _ _)

/-- C5: codes derived from a Huffman tree built over leaf nodes are
prefix-free — for any two distinct symbols in the table, neither code is a
prefix of the other. -/
theorem code_table_prefix_free (nodes : List Node) (root : Node)
    (cd : List (Char × List Char)) (a b : Char) (p q : List Char)
    (hleaf : ∀ n ∈ nodes, IsLeafNode n)
    (hroot : create_root_of_tree nodes = some root)
    (hcd : generate_codes root [] [] = some cd)
    (hab : a ≠ b)
    (ha : dictGet a cd = some p) (hb : dictGet b cd = some q) :
    ¬ p <+: q ∧ ¬ q <+: p := by
  have hwf : WF root :=
    (huffLoop_inv _ _ root (fun n hn => (hleaf n hn).wf) (le_refl _) hroot).1
  have hpa : LeafPath root p a := by
    rcases generate_codes_entries hwf hcd (dictGet_mem ha) with h | ⟨q', hq', hlp⟩
    · simp at h
    · simpa [hq'] using hlp
  have hqb : LeafPath root q b := by
    rcases generate_codes_entries hwf hcd (dictGet_mem hb) with h | ⟨q', hq', hlp⟩
    · simp at h
    · simpa [hq'] using hlp
  constructor
  · intro hpre
    have hpq := LeafPath.prefix_eq hpa hqb hpre
    rw [← hpq] at hqb
    exact hab (LeafPath.char_eq hpa hqb)
  · intro hpre
    have hpq := LeafPath.prefix_eq hqb hpa hpre
    rw [← hpq] at hpa
    exact hab (LeafPath.char_eq hpa hqb)

/-- C5 witness: the table derived for two equal-weight leaves assigns the
codes "0" and "1", which are mutually prefix-free. -/
theorem code_table_prefix_free_witness :
    ¬ (['0'] : List Char) <+: ['1'] ∧ ¬ (['1'] : List Char) <+: ['0'] :=
  code_table_prefix_free
    [Node.mk (some 'a') 1 none none, Node.mk (some 'b') 1 none none]
    (Node.mk2 none 2 (Node.mk0 (some 'a') 1) (Node.mk0 (some 'b') 1))
    [('a', ['0']), ('b', ['1'])] 'a' 'b' ['0'] ['1']
    (by decide) rfl rfl (by decide) rfl rfl

/-- C6: the decoder walk drops a trailing partial code: appending any proper
non-empty fragment of some symbol's code to a correct encoding decodes to
exactly the original text — the complete codes are decoded normally and the
fragment emits nothing. -/
theorem decode_drops_trailing_partial_code (text : List Char) (root : Node)
    (cd : List (Char × List Char)) (s : Char) (p q : List Char)
    (h2 : 2 ≤ (count_chars_freq text).length)
    (hinit : huffman_init (create_huffman_nodes text) = some (root, cd))
    (hs : dictGet s cd = some p)
    (hq : q <+: p) (_hq0 : q ≠ []) (hqp : q ≠ p) :
    decode_text root (encode_text cd text ++ q) = some text := by
  obtain ⟨hwf, hrc, hg, hcover⟩ := pipeline_props h2 hinit
  have hlp : LeafPath root p s := by
    rcases generate_codes_entries hwf hg (dictGet_mem hs) with h | ⟨q', hq', hlp⟩
    · simp at h
    · simpa [hq'] using hlp
  rw [decode_text, decode_go_encode hcover q []]
  simp only [List.nil_append]
  exact decode_go_partial hlp hq hqp root text

/-- C6 witness: for "aabc" (codes a↦0, b↦10, c↦11), appending the fragment
"1" of b's code to the encoding still decodes to "aabc". -/
theorem decode_drops_trailing_partial_code_witness :
    decode_text (Node.mk2 none 4 (Node.mk0 (some 'a') 2)
        (Node.mk2 none 2 (Node.mk0 (some 'b') 1) (Node.mk0 (some 'c') 1)))
      (encode_text [('a', ['0']), ('b', ['1', '0']), ('c', ['1', '1'])]
          ['a', 'a', 'b', 'c'] ++ ['1']) =
      some ['a', 'a', 'b', 'c'] :=
  decode_drops_trailing_partial_code ['a', 'a', 'b', 'c']
    (Node.mk2 none 4 (Node.mk0 (some 'a') 2)
      (Node.mk2 none 2 (Node.mk0 (some 'b') 1) (Node.mk0 (some 'c') 1)))
    [('a', ['0']), ('b', ['1', '0']), ('c', ['1', '1'])] 'b' ['1', '0'] ['1']
    (by decide) rfl rfl (by decide) (by decide) (by decide)

/-- C7 counterexample: the non-binary token 'x' does not make decoding fail —
on the tree for "ab" it is treated as '1' and decodes to "b". -/
theorem decode_accepts_nonbinary_token :
    huffman_init (create_huffman_nodes ['a', 'b']) =
        some (Node.mk2 none 2 (Node.mk0 (some 'a') 1) (Node.mk0 (some 'b') 1),
          [('a', ['0']), ('b', ['1'])]) ∧
      decode_text (Node.mk2 none 2 (Node.mk0 (some 'a') 1) (Node.mk0 (some 'b') 1))
        ['x'] = some ['b'] :=
  ⟨rfl, rfl⟩

/-- C7 (corrected): decoding performs no binary validation at all — replacing
every non-'0' character by '1' never changes the result, so no CorruptStream
failure exists; the only failure mode is reaching a missing child, which a
single-leaf tree exhibits even on the all-binary input "0". -/
theorem decode_never_validates_bits :
    (∀ (root : Node) (s : List Char),
        decode_text root s = decode_text root (normalize_bits s)) ∧
      decode_text (Node.mk (some 'a') 1 none none) ['0'] = none :=
  ⟨fun root s => decode_go_normalize s root [], rfl⟩

/-- The six leaves of the textbook frequency table
{a:5, b:9, c:12, d:13, e:16, f:45}. -/
def textbook_nodes : List Node :=
  [Node.mk (some 'a') 5 none none, Node.mk (some 'b') 9 none none,
   Node.mk (some 'c') 12 none none, Node.mk (some 'd') 13 none none,
   Node.mk (some 'e') 16 none none, Node.mk (some 'f') 45 none none]

/-- C8 counterexample: in the table derived for the textbook frequencies the
code of 'b' has length 4, not the claimed 3 (lengths {1,3,3,3,4,3} would even
violate the Kraft inequality). -/
theorem textbook_code_length_b :
    (derived_code textbook_nodes 'b').map List.length = some 4 ∧
      (derived_code textbook_nodes 'b').map List.length ≠ some 3 :=
  ⟨rfl, by decide⟩

/-- C8 (corrected): the textbook frequencies produce the classical code
lengths f:1, c:3, b:4, d:3, a:4, e:3 — exactly the codes f↦0, c↦100, d↦101,
a↦1100, b↦1101, e↦111 of the worked example. -/
theorem textbook_code_lengths :
    (derived_code textbook_nodes 'f').map List.length = some 1 ∧
      (derived_code textbook_nodes 'c').map List.length = some 3 ∧
      (derived_code textbook_nodes 'b').map List.length = some 4 ∧
      (derived_code textbook_nodes 'd').map List.length = some 3 ∧
      (derived_code textbook_nodes 'a').map List.length = some 4 ∧
      (derived_code textbook_nodes 'e').map List.length = some 3 :=
  ⟨rfl, rfl, rfl, rfl, rfl, rfl⟩

/-- C9: tree construction never mutates an existing node — the final heap
extends the initial one (new internal nodes are only appended), so every node
record present before construction is unchanged, at the same index,
afterwards; the id work list is a copy, leaving `base_nodes` untouched. -/
theorem construction_mutates_no_existing_node (heap : List NodeRec)
    (base_nodes : List Nat) :
    heap <+: (create_root_arena heap base_nodes).1 ∧
      ∀ i, i < heap.length → (create_root_arena heap base_nodes).1[i]? = heap[i]? := by
  refine ⟨arenaLoop_heap_monotone _ _ _, ?_⟩
  intro i hi
  rcases arenaLoop_heap_monotone base_nodes.length heap base_nodes with ⟨t, ht⟩
  have ht' : (create_root_arena heap base_nodes).1 = heap ++ t := ht.symm
  rw [ht']
  exact List.getElem?_append_left hi

/-- C9 witness: with two leaf records on the heap, construction leaves record
0 unchanged. -/
theorem construction_mutates_no_existing_node_witness :
    [(⟨some 'a', 1, none, none⟩ : NodeRec), ⟨some 'b', 2, none, none⟩] <+:
        (create_root_arena [⟨some 'a', 1, none, none⟩, ⟨some 'b', 2, none, none⟩]
          [0, 1]).1 ∧
      (create_root_arena [⟨some 'a', 1, none, none⟩, ⟨some 'b', 2, none, none⟩]
          [0, 1]).1[0]? =
        [(⟨some 'a', 1, none, none⟩ : NodeRec), ⟨some 'b', 2, none, none⟩][0]? :=
  ⟨(construction_mutates_no_existing_node _ _).1,
   (construction_mutates_no_existing_node _ _).2 0 (by decide)⟩

/-- C10: a `HuffmanMethod` built from a single leaf has that leaf as root
(both children absent) and `decode_text` dereferences the missing child
(fails) on the first bit of any non-empty input; for processor-built trees
with at least two distinct symbols the decode walk never reaches a missing
child on any input string. -/
theorem decode_missing_child_dereference :
    (∀ (c : Char) (f : Nat) (s : List Char), s ≠ [] →
        create_root_of_tree [Node.mk (some c) f none none]
            = some (Node.mk (some c) f none none) ∧
          decode_text (Node.mk (some c) f none none) s = none) ∧
      ∀ (text : List Char) (root : Node), 2 ≤ (count_chars_freq text).length →
        create_root_of_tree (create_huffman_nodes text) = some root →
        ∀ s, ∃ out, decode_text root s = some out := by
  constructor
  · intro c f s hs
    refine ⟨huffLoop_single _ _, ?_⟩
    rcases s with _ | ⟨b, bs⟩
    · exact absurd rfl hs
    · have hd : descend (Node.mk (some c) f none none) b = none := by
        by_cases hb : b = '0' <;> simp [descend, hb]
      rw [decode_text]
      simp [decode_go, hd]
  · intro text root h2 hroot s
    have hinv := huffLoop_inv _ _ root (create_huffman_nodes_wf text) (le_refl _) hroot
    have hrc : root.char = none := by
      apply hinv.2.2
      rw [create_huffman_nodes_length]
      exact h2
    exact decode_go_safe hinv.1 hrc s hinv.1 hrc []

/-- C10 witness: decoding "0" on the single leaf for 'a' crashes, while
decoding "110" on the two-symbol tree for "ab" succeeds. -/
theorem decode_missing_child_dereference_witness :
    decode_text (Node.mk (some 'a') 1 none none) ['0'] = none ∧
      ∃ out, decode_text (Node.mk2 none 2 (Node.mk0 (some 'a') 1)
        (Node.mk0 (some 'b') 1)) ['1', '1', '0'] = some out :=
  ⟨(decode_missing_child_dereference.1 'a' 1 ['0'] (by decide)).2,
   decode_missing_child_dereference.2 ['a', 'b']
     (Node.mk2 none 2 (Node.mk0 (some 'a') 1) (Node.mk0 (some 'b') 1))
     (by decide) rfl ['1', '1', '0']⟩

end Huffman
